import Mathlib

/-!
Shallow embedding of `app.py` (video transcription pipeline).

Pure parts of the program (`format_time`, `process_transcription`,
`estimate_cost`) are translated directly.  The stateful parts
(`split_audio_by_size`, the processing block of `main`) are modelled with
an explicit file-system state `FS`: creating a temporary file allocates a
fresh numeric id, deleting removes it from the list of files on disk.
The mp3 encoder is an oracle `enc : Nat → Nat → Nat` giving the on-disk
byte size of exporting the audio slice `[startMs, endMs)`; the remote
transcription service is an oracle `tOk : Nat → Bool` saying whether the
call for the i-th chunk succeeds (a `false` models the exception raised
by `client.audio.transcriptions.create`).

Python floats are modelled by exact rationals.  Two justified deviations
from bit-level float semantics, both checked exhaustively on the
reachable range: `int(chunk_duration_ms * 0.9)` equals `n * 9 / 10` for
every `n ≤ 70000`, and `os.path.getsize(f) / (1024*1024) <= max_size_mb`
equals `size ≤ max_size_mb * 1048576` (division by a power of two is
exact).
-/

namespace Transtamps

/-- Model of the temporary directory: `nextId` is the next fresh file
name, `onDisk` the files currently existing (most recent first). -/
structure FS where
  nextId : Nat
  onDisk : List Nat
  deriving DecidableEq, Repr

/-- Start of a run: empty temporary directory. -/
def FS.empty : FS := ⟨0, []⟩

/-- Creation of a temporary file (`tempfile.NamedTemporaryFile(delete=False)`):
returns the fresh name and the new state. -/
def FS.create (fs : FS) : Nat × FS :=
  (fs.nextId, ⟨fs.nextId + 1, fs.nextId :: fs.onDisk⟩)

/-- Deletion of a file (`os.unlink` / `os.remove`). -/
def FS.delete (fid : Nat) (fs : FS) : FS :=
  ⟨fs.nextId, fs.onDisk.erase fid⟩

/-- Window shrink step `chunk_duration_ms = int(chunk_duration_ms * 0.9)`
(app.py line 56); equal to float semantics on the whole reachable range
`0..70000`. -/
def shrink (n : Nat) : Nat := n * 9 / 10

/-- Record of one emitted chunk: the temporary file name, the cursor
position `start` (ms) at which it was cut, and the accepted
`chunk_duration_ms` window.  The Python tuple stored in `chunks` is
`(fid, startMs / 1000)`; the window is carried so that the slice
actually exported, `[startMs, min (startMs + window) total)`, is
recoverable. -/
structure ChunkRec where
  fid : Nat
  startMs : Nat
  window : Nat
  deriving DecidableEq, Repr

/-- End (exclusive, ms) of the audio slice exported for this chunk:
`end = min(start + chunk_duration_ms, total_duration_ms)` (app.py line 47). -/
def ChunkRec.endMs (total : Nat) (c : ChunkRec) : Nat :=
  min (c.startMs + c.window) total

/-- Offset stored with the chunk: `start / 1000.0` (app.py line 53). -/
def ChunkRec.offsetSec (c : ChunkRec) : ℚ :=
  (c.startMs : ℚ) / 1000

/-- Inner `while True` loop of `split_audio_by_size` (app.py lines 46-61)
for one cursor position `startMs`, attempting window `window`.  Each
attempt exports the slice to a fresh temporary file; an attempt within
the byte cap is accepted (`some (window, fid)`), an oversize attempt is
deleted and the window shrunk, and a shrink below 10000 ms aborts
(`none`).  The third component is the list of attempted windows, newest
attempt last in recursion order. -/
def innerLoop (enc : Nat → Nat → Nat) (cap total startMs : Nat) :
    Nat → FS → Option (Nat × Nat) × FS × List Nat :=
  fun window fs =>
    let e := min (startMs + window) total
    let c := fs.create
    if enc startMs e ≤ cap * 1048576 then
      (some (window, c.1), c.2, [window])
    else
      let fs2 := FS.delete c.1 c.2
      if h : shrink window < 10000 then
        (none, fs2, [window])
      else
        let r := innerLoop enc cap total startMs (shrink window) fs2
        (r.1, r.2.1, window :: r.2.2)
  termination_by window _ => window
  decreasing_by
    simp only [shrink] at h ⊢
    omega

/-- Every window the inner loop accepts is at least the 10000 ms floor and
at most the window it started from: the loop aborts after a shrink below
the floor, before re-encoding. -/
theorem innerLoop_some_ge (enc : Nat → Nat → Nat) (cap total startMs : Nat) :
    ∀ window fs, 10000 ≤ window →
      ∀ w fid fs2 att,
        innerLoop enc cap total startMs window fs = (some (w, fid), fs2, att) →
        10000 ≤ w ∧ w ≤ window := by
  intro window
  induction window using Nat.strong_induction_on with
  | _ window ih =>
    intro fs hw w fid fs2 att heq
    rw [innerLoop] at heq
    split at heq
    · simp only [Prod.mk.injEq, Option.some.injEq] at heq
      omega
    · split at heq
      · simp at heq
      · rename_i hbig hlow
        have hlt : shrink window < window := by
          simp only [shrink] at hlow ⊢; omega
        simp only [Prod.mk.injEq, List.cons.injEq] at heq
        obtain ⟨h1, h2, h3⟩ := heq
        have hr := ih (shrink window) hlt (FS.delete fs.create.1 fs.create.2)
          (by omega) w fid
          (innerLoop enc cap total startMs (shrink window)
            (FS.delete fs.create.1 fs.create.2)).2.1
          (innerLoop enc cap total startMs (shrink window)
            (FS.delete fs.create.1 fs.create.2)).2.2
          (by rw [← h1])
        omega

/-- State evolution of an accepting inner loop: the accepted attempt's
file fits under the byte cap, its name is fresh, and exactly that file
was added to the disk (every rejected attempt was deleted again). -/
theorem innerLoop_some_spec (enc : Nat → Nat → Nat) (cap total startMs : Nat) :
    ∀ window fs w fid fs2 att,
      innerLoop enc cap total startMs window fs = (some (w, fid), fs2, att) →
      enc startMs (min (startMs + w) total) ≤ cap * 1048576 ∧
      fs.nextId ≤ fid ∧ fs2 = ⟨fid + 1, fid :: fs.onDisk⟩ := by
  intro window
  induction window using Nat.strong_induction_on with
  | _ window ih =>
    intro fs w fid fs2 att heq
    rw [innerLoop] at heq
    split at heq
    · rename_i hfit
      simp only [Prod.mk.injEq, Option.some.injEq, FS.create] at heq
      obtain ⟨⟨hww, hfid⟩, hfs, -⟩ := heq
      subst hww; subst hfid; subst hfs
      exact ⟨hfit, le_refl _, rfl⟩
    · split at heq
      · simp at heq
      · rename_i hbig hlow
        have hlt : shrink window < window := by
          simp only [shrink] at hlow ⊢; omega
        simp only [Prod.mk.injEq, List.cons.injEq] at heq
        obtain ⟨h1, h2, h3⟩ := heq
        have hdel : FS.delete fs.create.1 fs.create.2 =
            ⟨fs.nextId + 1, fs.onDisk⟩ := by
          simp [FS.delete, FS.create, List.erase_cons_head]
        rw [hdel] at h1 h2
        have hr := ih (shrink window) hlt ⟨fs.nextId + 1, fs.onDisk⟩ w fid
          (innerLoop enc cap total startMs (shrink window)
            ⟨fs.nextId + 1, fs.onDisk⟩).2.1
          (innerLoop enc cap total startMs (shrink window)
            ⟨fs.nextId + 1, fs.onDisk⟩).2.2
          (by rw [← h1])
        dsimp only at hr
        refine ⟨hr.1, by omega, ?_⟩
        rw [← h2, hr.2.2]

/-- State evolution of an aborting inner loop: the output disk state
equals the input one (the final oversize attempt is deleted before the
`return []`), and only the fresh-name counter advanced. -/
theorem innerLoop_none_spec (enc : Nat → Nat → Nat) (cap total startMs : Nat) :
    ∀ window fs fs2 att,
      innerLoop enc cap total startMs window fs = (none, fs2, att) →
      fs2.onDisk = fs.onDisk ∧ fs.nextId ≤ fs2.nextId := by
  intro window
  induction window using Nat.strong_induction_on with
  | _ window ih =>
    intro fs fs2 att heq
    rw [innerLoop] at heq
    split at heq
    · simp at heq
    · split at heq
      · simp only [Prod.mk.injEq] at heq
        obtain ⟨-, h2, -⟩ := heq
        have hdel : FS.delete fs.create.1 fs.create.2 =
            ⟨fs.nextId + 1, fs.onDisk⟩ := by
          simp [FS.delete, FS.create, List.erase_cons_head]
        rw [hdel] at h2
        rw [← h2]
        exact ⟨rfl, Nat.le_succ _⟩
      · rename_i hbig hlow
        have hlt : shrink window < window := by
          simp only [shrink] at hlow ⊢; omega
        simp only [Prod.mk.injEq] at heq
        obtain ⟨h1, h2, h3⟩ := heq
        have hdel : FS.delete fs.create.1 fs.create.2 =
            ⟨fs.nextId + 1, fs.onDisk⟩ := by
          simp [FS.delete, FS.create, List.erase_cons_head]
        rw [hdel] at h1 h2
        have hr := ih (shrink window) hlt ⟨fs.nextId + 1, fs.onDisk⟩
          (innerLoop enc cap total startMs (shrink window)
            ⟨fs.nextId + 1, fs.onDisk⟩).2.1
          (innerLoop enc cap total startMs (shrink window)
            ⟨fs.nextId + 1, fs.onDisk⟩).2.2
          (by rw [← h1])
        dsimp only at hr
        rw [← h2]
        exact ⟨hr.1, by omega⟩

/-- Every window the inner loop ever attempts to encode is at least the
10000 ms floor, provided the starting window is (the run aborts right
after a shrink below the floor, before trying it). -/
theorem innerLoop_att_ge (enc : Nat → Nat → Nat) (cap total startMs : Nat) :
    ∀ window fs, 10000 ≤ window →
      ∀ a ∈ (innerLoop enc cap total startMs window fs).2.2, 10000 ≤ a := by
  intro window
  induction window using Nat.strong_induction_on with
  | _ window ih =>
    intro fs hw a ha
    rw [innerLoop] at ha
    split at ha
    · simp only [List.mem_singleton] at ha
      omega
    · split at ha
      · simp only [List.mem_singleton] at ha
        omega
      · rename_i hbig hlow
        simp only [List.mem_cons] at ha
        rcases ha with rfl | ha
        · omega
        · have hlt : shrink window < window := by
            simp only [shrink] at hlow ⊢; omega
          exact ih (shrink window) hlt _ (by omega) a ha

/-- Outer `while start < total_duration_ms` loop of `split_audio_by_size`
(app.py lines 44-62), parameterised by the cursor and the disk state.
Each iteration re-starts the inner loop at `chunk_duration_ms = 60000`;
an accepted chunk advances the cursor by the attempted (not clamped)
window; an inner abort propagates (`none`, modelling `return []`).
The third component collects all attempted windows of the run. -/
def go (enc : Nat → Nat → Nat) (cap total startMs : Nat) (fs : FS) :
    Option (List ChunkRec) × FS × List Nat :=
  if h : startMs < total then
    match h2 : innerLoop enc cap total startMs 60000 fs with
    | (none, fs1, att) => (none, fs1, att)
    | (some (w, fid), fs1, att) =>
      match go enc cap total (startMs + w) fs1 with
      | (none, fs2, att2) => (none, fs2, att ++ att2)
      | (some l, fs2, att2) =>
        (some ({ fid := fid, startMs := startMs, window := w } :: l), fs2,
          att ++ att2)
  else (some [], fs, [])
  termination_by total - startMs
  decreasing_by
    have := innerLoop_some_ge enc cap total startMs 60000 fs (by omega)
      w fid fs1 att h2
    omega

/-- Top-level `split_audio_by_size(audio_path, max_size_mb)` (app.py lines
39-63): returns the list of `(chunk file, start seconds)` pairs, the
empty list on the infeasibility abort. -/
def split_audio_by_size (enc : Nat → Nat → Nat) (cap total : Nat) :
    List (Nat × ℚ) :=
  match (go enc cap total 0 FS.empty).1 with
  | none => []
  | some cs => cs.map fun c => (c.fid, c.offsetSec)

/-- Invariant tying a chunk list to the cursor position it was produced
from: each chunk is cut at the current cursor, with an accepted window
between the 10000 ms floor and the initial 60000 ms attempt, its exported
slice fits the byte cap, and the cursor advances by the attempted window;
the list ends exactly when the cursor has reached `total`. -/
def chunksOK (enc : Nat → Nat → Nat) (cap total : Nat) :
    Nat → List ChunkRec → Prop
  | startMs, [] => total ≤ startMs
  | startMs, c :: cs =>
      startMs < total ∧ c.startMs = startMs ∧ 10000 ≤ c.window ∧
      c.window ≤ 60000 ∧
      enc c.startMs (c.endMs total) ≤ cap * 1048576 ∧
      chunksOK enc cap total (startMs + c.window) cs

/-- Main invariant of a successful chunker run: the emitted list satisfies
`chunksOK` from the starting cursor, the files on disk afterwards are
exactly the emitted chunk files (newest first) on top of the initial disk
state, and the emitted file names are fresh and strictly increasing. -/
theorem go_some_spec (enc : Nat → Nat → Nat) (cap total : Nat) :
    ∀ startMs fs cs fs2 att,
      go enc cap total startMs fs = (some cs, fs2, att) →
      chunksOK enc cap total startMs cs ∧
      fs2.onDisk = (cs.map ChunkRec.fid).reverse ++ fs.onDisk ∧
      fs.nextId ≤ fs2.nextId ∧
      (∀ f ∈ cs.map ChunkRec.fid, fs.nextId ≤ f ∧ f < fs2.nextId) ∧
      (cs.map ChunkRec.fid).Pairwise (· < ·) := by
  suffices h : ∀ n startMs, total - startMs = n →
      ∀ fs cs fs2 att, go enc cap total startMs fs = (some cs, fs2, att) →
      chunksOK enc cap total startMs cs ∧
      fs2.onDisk = (cs.map ChunkRec.fid).reverse ++ fs.onDisk ∧
      fs.nextId ≤ fs2.nextId ∧
      (∀ f ∈ cs.map ChunkRec.fid, fs.nextId ≤ f ∧ f < fs2.nextId) ∧
      (cs.map ChunkRec.fid).Pairwise (· < ·) by
    intro startMs
    exact h _ startMs rfl
  intro n
  induction n using Nat.strong_induction_on with
  | _ n ih =>
    intro startMs hn fs cs fs2 att heq
    rw [go] at heq
    split at heq
    · rename_i hlt
      split at heq
      · simp at heq
      · rename_i w fid fs1 att1 h2
        split at heq
        · simp at heq
        · rename_i l fs2a att2 h3
          simp only [Prod.mk.injEq, Option.some.injEq] at heq
          obtain ⟨hcs, hfs2, hatt⟩ := heq
          have hge := innerLoop_some_ge enc cap total startMs 60000 fs
            (by omega) w fid fs1 att1 h2
          have hsp := innerLoop_some_spec enc cap total startMs 60000 fs
            w fid fs1 att1 h2
          obtain ⟨hsize, hfidge, hfs1⟩ := hsp
          have hih := ih (total - (startMs + w)) (by omega) (startMs + w)
            rfl fs1 l fs2a att2 h3
          obtain ⟨hok, hdisk, hnext, hmem, hpw⟩ := hih
          rw [hfs1] at hdisk hnext hmem
          dsimp only at hdisk hnext hmem
          subst hcs
          subst hfs2
          refine ⟨⟨hlt, rfl, hge.1, hge.2, hsize, hok⟩, ?_, by omega, ?_, ?_⟩
          · rw [hdisk]
            simp [List.reverse_cons, List.append_assoc]
          · intro f hf
            simp only [List.map_cons, List.mem_cons] at hf
            rcases hf with rfl | hf
            · exact ⟨hfidge, by omega⟩
            · have := hmem f hf
              omega
          · simp only [List.map_cons, List.pairwise_cons]
            refine ⟨fun f hf => ?_, hpw⟩
            have := hmem f hf
            omega
    · rename_i hge
      simp only [Prod.mk.injEq, Option.some.injEq] at heq
      obtain ⟨hcs, hfs2, hatt⟩ := heq
      subst hcs
      subst hfs2
      refine ⟨by simp only [chunksOK]; omega, by simp, le_refl _, ?_, ?_⟩
      · intro f hf
        simp at hf
      · simp

/-- All windows attempted during a whole chunker run (successful or
aborted) are at least the 10000 ms floor. -/
theorem go_att_ge (enc : Nat → Nat → Nat) (cap total : Nat) :
    ∀ startMs fs, ∀ a ∈ (go enc cap total startMs fs).2.2, 10000 ≤ a := by
  suffices h : ∀ n startMs, total - startMs = n →
      ∀ fs, ∀ a ∈ (go enc cap total startMs fs).2.2, 10000 ≤ a by
    intro startMs
    exact h _ startMs rfl
  intro n
  induction n using Nat.strong_induction_on with
  | _ n ih =>
    intro startMs hn fs a ha
    rw [go] at ha
    split at ha
    · rename_i hlt
      split at ha
      · rename_i fs1 att1 h2
        have := innerLoop_att_ge enc cap total startMs 60000 fs (by omega) a
        rw [h2] at this
        exact this ha
      · rename_i w fid fs1 att1 h2
        have hge := innerLoop_some_ge enc cap total startMs 60000 fs
          (by omega) w fid fs1 att1 h2
        have hatt1 : ∀ b ∈ att1, 10000 ≤ b := by
          intro b hb
          have := innerLoop_att_ge enc cap total startMs 60000 fs (by omega) b
          rw [h2] at this
          exact this hb
        split at ha
        · rename_i fs2a att2 h3
          simp only [List.mem_append] at ha
          rcases ha with ha | ha
          · exact hatt1 a ha
          · have := ih (total - (startMs + w)) (by omega) (startMs + w) rfl fs1 a
            rw [h3] at this
            exact this ha
        · rename_i l fs2a att2 h3
          simp only [List.mem_append] at ha
          rcases ha with ha | ha
          · exact hatt1 a ha
          · have := ih (total - (startMs + w)) (by omega) (startMs + w) rfl fs1 a
            rw [h3] at this
            exact this ha
    · simp at ha

/-- Every chunk in a `chunksOK` list starts at or after the initial
cursor, before the end of the audio, and respects window floor, window
cap and byte bound. -/
theorem chunksOK_mem (enc : Nat → Nat → Nat) (cap total : Nat) :
    ∀ cs startMs, chunksOK enc cap total startMs cs →
      ∀ c ∈ cs, startMs ≤ c.startMs ∧ c.startMs < total ∧
        10000 ≤ c.window ∧ c.window ≤ 60000 ∧
        enc c.startMs (c.endMs total) ≤ cap * 1048576 := by
  intro cs
  induction cs with
  | nil => intro startMs _ c hc; simp at hc
  | cons c0 cs ih =>
    intro startMs hok c hc
    obtain ⟨hlt, hst, hfl, hcap, hsz, hrest⟩ := hok
    rcases List.mem_cons.1 hc with rfl | hc
    · exact ⟨le_of_eq hst.symm, hst ▸ hlt, hfl, hcap, hsz⟩
    · have := ih (startMs + c0.window) hrest c hc
      exact ⟨by omega, this.2.1, this.2.2.1, this.2.2.2.1, this.2.2.2.2⟩

/-- Adjacency: consecutive chunks in a `chunksOK` list satisfy
`next.startMs = cur.startMs + cur.window` (cursor advance by the
attempted window). -/
theorem chunksOK_chain (enc : Nat → Nat → Nat) (cap total : Nat) :
    ∀ cs startMs, chunksOK enc cap total startMs cs →
      List.Chain' (fun a b => b.startMs = a.startMs + a.window) cs := by
  intro cs
  induction cs with
  | nil => intro _ _; simp
  | cons c0 cs ih =>
    intro startMs hok
    obtain ⟨hlt, hst, hfl, hcap, hsz, hrest⟩ := hok
    rcases cs with _ | ⟨c1, cs⟩
    · simp
    · refine List.Chain'.cons ?_ (ih (startMs + c0.window) hrest)
      obtain ⟨-, hst1, -⟩ := hrest
      omega

/-- The last chunk of a `chunksOK` list reaches the end of the audio:
its unclamped end `startMs + window` is at least `total`. -/
theorem chunksOK_last (enc : Nat → Nat → Nat) (cap total : Nat) :
    ∀ cs startMs, chunksOK enc cap total startMs cs →
      ∀ c ∈ cs.getLast?, total ≤ c.startMs + c.window := by
  intro cs
  induction cs with
  | nil => intro _ _ c hc; simp at hc
  | cons c0 cs ih =>
    intro startMs hok c hc
    obtain ⟨hlt, hst, hfl, hcap, hsz, hrest⟩ := hok
    rcases cs with _ | ⟨c1, cs⟩
    · simp only [List.getLast?_singleton, Option.mem_def, Option.some.injEq] at hc
      subst hc
      simp only [chunksOK] at hrest
      omega
    · have hc' : c ∈ (c1 :: cs).getLast? := by
        simpa [List.getLast?_cons_cons] using hc
      exact ih (startMs + c0.window) hrest c hc'

/-- Every non-final chunk of a `chunksOK` list is unclamped: its full
window lies strictly inside the audio, so its exported duration is
exactly its window. -/
theorem chunksOK_dropLast (enc : Nat → Nat → Nat) (cap total : Nat) :
    ∀ cs startMs, chunksOK enc cap total startMs cs →
      ∀ c ∈ cs.dropLast, c.startMs + c.window < total := by
  intro cs
  induction cs with
  | nil => intro _ _ c hc; simp at hc
  | cons c0 cs ih =>
    intro startMs hok c hc
    obtain ⟨hlt, hst, hfl, hcap, hsz, hrest⟩ := hok
    rcases cs with _ | ⟨c1, cs⟩
    · simp at hc
    · rw [List.dropLast_cons₂] at hc
      rcases List.mem_cons.1 hc with rfl | hc
      · obtain ⟨hlt1, hst1, -⟩ := hrest
        omega
      · exact ih (startMs + c0.window) hrest c hc

/-- Coverage: every millisecond of `[startMs, total)` lies in the slice
of some chunk of a `chunksOK` list. -/
theorem chunksOK_cover (enc : Nat → Nat → Nat) (cap total : Nat) :
    ∀ cs startMs, chunksOK enc cap total startMs cs →
      ∀ x, startMs ≤ x → x < total →
        ∃ c ∈ cs, c.startMs ≤ x ∧ x < c.endMs total := by
  intro cs
  induction cs with
  | nil =>
    intro startMs hok x hx hxt
    simp only [chunksOK] at hok
    omega
  | cons c0 cs ih =>
    intro startMs hok x hx hxt
    obtain ⟨hlt, hst, hfl, hcap, hsz, hrest⟩ := hok
    by_cases hin : x < startMs + c0.window
    · exact ⟨c0, List.mem_cons_self .., by omega,
        by simp only [ChunkRec.endMs]; omega⟩
    · obtain ⟨c, hc, h1, h2⟩ := ih (startMs + c0.window) hrest x (by omega) hxt
      exact ⟨c, List.mem_cons_of_mem _ hc, h1, h2⟩

/-- Disjointness: chunks of a `chunksOK` list are pairwise ordered, the
earlier one's slice ending at or before the later one starts. -/
theorem chunksOK_pairwise (enc : Nat → Nat → Nat) (cap total : Nat) :
    ∀ cs startMs, chunksOK enc cap total startMs cs →
      List.Pairwise
        (fun a b => a.endMs total ≤ b.startMs ∧ a.startMs < b.startMs) cs := by
  intro cs
  induction cs with
  | nil => intro _ _; simp
  | cons c0 cs ih =>
    intro startMs hok
    obtain ⟨hlt, hst, hfl, hcap, hsz, hrest⟩ := hok
    refine List.pairwise_cons.2 ⟨?_, ih (startMs + c0.window) hrest⟩
    intro b hb
    have hb' := chunksOK_mem enc cap total cs (startMs + c0.window) hrest b hb
    refine ⟨?_, by omega⟩
    simp only [ChunkRec.endMs]
    omega

/-- Termination measure realised: a nonempty `chunksOK` list advances
the cursor by at least 10000 ms per chunk while every chunk starts
before `total`, bounding the number of chunks. -/
theorem chunksOK_length (enc : Nat → Nat → Nat) (cap total : Nat) :
    ∀ cs startMs, chunksOK enc cap total startMs cs → cs ≠ [] →
      startMs + (cs.length - 1) * 10000 < total := by
  intro cs
  induction cs with
  | nil => intro _ _ h; exact absurd rfl h
  | cons c0 cs ih =>
    intro startMs hok _
    obtain ⟨hlt, hst, hfl, hcap, hsz, hrest⟩ := hok
    rcases cs with _ | ⟨c1, cs⟩
    · simpa using hlt
    · have := ih (startMs + c0.window) hrest (by simp)
      simp only [List.length_cons] at this ⊢
      omega

/-- Outcome of the `Process Video` block of `main` (app.py lines 127-161):
transcription complete, empty-chunk-list failure (the branch at line 134,
also reached by the infeasibility abort), or an exception raised by a
transcription call. -/
inductive RunStatus where
  | success
  | chunkFail
  | transcribeError
  deriving DecidableEq, Repr

/-- Transcription loop of `main` (app.py lines 140-145): for each chunk,
call the service (oracle `tOk i`); on success delete the chunk file and
continue, on failure the exception propagates with the disk untouched. -/
def transcribeLoop (tOk : Nat → Bool) : List ChunkRec → Nat → FS → Bool × FS
  | [], _, fs => (true, fs)
  | c :: cs, i, fs =>
    if tOk i then transcribeLoop tOk cs (i + 1) (FS.delete c.fid fs)
    else (false, fs)

/-- Processing block of `main` (app.py lines 127-161): extract the audio
to a temporary file, split it into chunks, bail out if the chunk list is
empty, else transcribe each chunk (deleting it after a successful call)
and finally delete the extracted audio file. -/
def runMain (enc : Nat → Nat → Nat) (cap total : Nat) (tOk : Nat → Bool) :
    RunStatus × FS :=
  let a := FS.empty.create
  let r := go enc cap total 0 a.2
  match r.1.getD [] with
  | [] => (RunStatus.chunkFail, r.2.1)
  | c :: cs =>
    let t := transcribeLoop tOk (c :: cs) 0 r.2.1
    if t.1 then (RunStatus.success, FS.delete a.1 t.2)
    else (RunStatus.transcribeError, t.2)

/-- When every transcription call succeeds, the loop deletes exactly the
chunk files, leaving the rest of the disk untouched. -/
theorem transcribeLoop_clean (tOk : Nat → Bool) (hok : ∀ i, tOk i = true) :
    ∀ (cs : List ChunkRec) (i : Nat) (fs : FS) (rest : List Nat),
      fs.onDisk = (cs.map ChunkRec.fid).reverse ++ rest →
      (cs.map ChunkRec.fid).Pairwise (· < ·) →
      transcribeLoop tOk cs i fs = (true, ⟨fs.nextId, rest⟩) := by
  intro cs
  induction cs with
  | nil =>
    intro i fs rest hdisk _
    simp only [List.map_nil, List.reverse_nil, List.nil_append] at hdisk
    simp [transcribeLoop, ← hdisk]
  | cons c cs ih =>
    intro i fs rest hdisk hpw
    simp only [List.map_cons, List.pairwise_cons] at hpw
    have hnotin : c.fid ∉ (cs.map ChunkRec.fid).reverse := by
      simp only [List.mem_reverse]
      intro hmem
      exact absurd rfl (Nat.ne_of_lt (hpw.1 _ hmem))
    have herase : (FS.delete c.fid fs).onDisk =
        (cs.map ChunkRec.fid).reverse ++ rest := by
      simp only [FS.delete, hdisk, List.map_cons, List.reverse_cons,
        List.append_assoc, List.singleton_append]
      rw [List.erase_append_right _ hnotin, List.erase_cons_head]
    simp only [transcribeLoop, hok i, if_true]
    rw [ih (i + 1) (FS.delete c.fid fs) rest herase hpw.2]
    rfl

/-- Python `int()` applied to a real value: truncation toward zero. -/
def pyInt (q : ℚ) : ℤ := if q < 0 then ⌈q⌉ else ⌊q⌋

/-- Zero padding of a digit string to the given width (the `0` fill of a
Python `{:02d}` format). -/
def zfill (width : Nat) (s : String) : String :=
  if width ≤ s.length then s
  else String.mk (List.replicate (width - s.length) '0') ++ s

/-- Python `f"{n:02d}"` for an integer `n`: minimum total width two, the
zero padding inserted after the sign. -/
def pad2 (n : ℤ) : String :=
  if n < 0 then "-" ++ zfill 1 (toString n.natAbs)
  else zfill 2 (toString n.natAbs)

/-- `format_time(seconds)` (app.py lines 75-77):
`minutes, seconds = divmod(int(seconds), 60)` rendered as
`f"{minutes:02d}:{seconds:02d}"`.  Python `divmod` with the positive
divisor 60 is Euclidean division and remainder, which is what `/` and
`%` on `ℤ` denote here. -/
def format_time (seconds : ℚ) : String :=
  pad2 (pyInt seconds / 60) ++ ":" ++ pad2 (pyInt seconds % 60)

/-- One segment of a service reply, with chunk-relative times
`segment.start` and `segment.end` and the raw `segment.text`
(`end` is a Lean keyword, so the field is named `stop`). -/
structure Segment where
  start : ℚ
  stop : ℚ
  text : String
  deriving DecidableEq, Repr

/-- One verbose reply of the transcription service: its `segments` list
in service order. -/
structure Reply where
  segments : List Segment
  deriving DecidableEq, Repr

/-- One output row, the dict `{'Timestamp': ..., 'Text': ...}` of
app.py line 87. -/
structure Row where
  timestamp : String
  text : String
  deriving DecidableEq, Repr

/-- `process_transcription(transcriptions)` (app.py lines 79-88): nested
loops over `(transcription, time_offset)` pairs and their segments,
appending one row per segment with the offset-shifted, formatted
timestamp range and the whitespace-trimmed text. -/
def process_transcription (ts : List (Reply × ℚ)) : List Row :=
  ts.foldl
    (fun data p =>
      p.1.segments.foldl
        (fun data seg =>
          data ++ [{ timestamp := format_time (p.2 + seg.start) ++ " - " ++
                       format_time (p.2 + seg.stop),
                     text := seg.text.trim }])
        data)
    []

/-- Absolute start seconds `time_offset + segment.start` underlying the
rows of `process_transcription`, in row order. -/
def absStarts (ts : List (Reply × ℚ)) : List ℚ :=
  ts.flatMap fun p => p.1.segments.map fun seg => p.2 + seg.start

/-- `estimate_cost(duration_seconds)` (app.py lines 98-102):
`math.ceil(duration_seconds / 60) * 0.006`, the float constant modelled
as the exact rational it denotes in the claims. -/
def estimate_cost (duration_seconds : ℚ) : ℚ :=
  (⌈duration_seconds / 60⌉ : ℚ) * (6 / 1000)

/-- Appending-fold form of a map: the inner segment loop of
`process_transcription` appends exactly the mapped rows. -/
theorem foldl_append_eq_map {α : Type} (g : α → Row) :
    ∀ (l : List α) (init : List Row),
      l.foldl (fun data x => data ++ [g x]) init = init ++ l.map g := by
  intro l
  induction l with
  | nil => intro init; simp
  | cons x l ih =>
    intro init
    simp only [List.foldl_cons, List.map_cons, ih, List.append_assoc,
      List.singleton_append]

/-- Closed form of `process_transcription`: one row per segment, in
reply order then service order. -/
theorem process_transcription_eq (ts : List (Reply × ℚ)) :
    process_transcription ts =
      ts.flatMap fun p => p.1.segments.map fun seg =>
        { timestamp := format_time (p.2 + seg.start) ++ " - " ++
            format_time (p.2 + seg.stop),
          text := seg.text.trim } := by
  suffices h : ∀ (l : List (Reply × ℚ)) (init : List Row),
      l.foldl
        (fun data p =>
          p.1.segments.foldl
            (fun data seg =>
              data ++ [{ timestamp := format_time (p.2 + seg.start) ++ " - " ++
                           format_time (p.2 + seg.stop),
                         text := seg.text.trim }])
            data)
        init =
      init ++ l.flatMap (fun p => p.1.segments.map fun seg =>
        { timestamp := format_time (p.2 + seg.start) ++ " - " ++
            format_time (p.2 + seg.stop),
          text := seg.text.trim }) by
    simpa [process_transcription] using h ts []
  intro l
  induction l with
  | nil => intro init; simp
  | cons p l ih =>
    intro init
    rw [List.foldl_cons, foldl_append_eq_map, ih, List.flatMap_cons,
      List.append_assoc]

/-- With an encoder whose output always fits the cap, the first attempt
is accepted as-is. -/
theorem innerLoop_zero (cap total startMs window : Nat) (fs : FS) :
    innerLoop (fun _ _ => 0) cap total startMs window fs =
      (some (window, fs.nextId),
        ⟨fs.nextId + 1, fs.nextId :: fs.onDisk⟩, [window]) := by
  rw [innerLoop]
  simp [FS.create]

/-- With an encoder whose output always fits the cap and audio of at most
one minute, the chunker emits exactly one chunk cut at 0 with the full
initial 60000 ms window. -/
theorem go_zero_single (cap total : Nat) (h1 : 0 < total)
    (h2 : total ≤ 60000) (fs : FS) :
    go (fun _ _ => 0) cap total 0 fs =
      (some [⟨fs.nextId, 0, 60000⟩],
        ⟨fs.nextId + 1, fs.nextId :: fs.onDisk⟩, [60000]) := by
  rw [go]
  rw [dif_pos h1]
  split
  · rename_i fs1 att h
    rw [innerLoop_zero] at h
    simp at h
  · rename_i w fid fs1 att h
    rw [innerLoop_zero] at h
    simp only [Prod.mk.injEq, Option.some.injEq] at h
    obtain ⟨⟨hw, hfid⟩, hfs1, hatt⟩ := h
    subst hw; subst hfid; subst hfs1; subst hatt
    have hstop : go (fun _ _ => 0) cap total (0 + 60000)
        ⟨fs.nextId + 1, fs.nextId :: fs.onDisk⟩ =
        (some [], ⟨fs.nextId + 1, fs.nextId :: fs.onDisk⟩, []) := by
      rw [go]
      rw [dif_neg (by omega)]
    split
    · rename_i fs2 att2 h
      rw [hstop] at h
      simp at h
    · rename_i l fs2 att2 h
      rw [hstop] at h
      simp only [Prod.mk.injEq, Option.some.injEq] at h
      obtain ⟨hl, hfs2, hatt2⟩ := h
      subst hl; subst hfs2; subst hatt2
      simp

/-- With an encoder whose output always exceeds the cap, every inner loop
aborts: no window can ever fit. -/
theorem innerLoop_oversize_none (cap total startMs : Nat) :
    ∀ window fs,
      (innerLoop (fun _ _ => cap * 1048576 + 1) cap total startMs
        window fs).1 = none := by
  intro window
  induction window using Nat.strong_induction_on with
  | _ window ih =>
    intro fs
    rw [innerLoop]
    rw [if_neg (by omega)]
    by_cases hlow : shrink window < 10000
    · rw [dif_pos hlow]
    · rw [dif_neg hlow]
      exact ih (shrink window) (by simp only [shrink] at hlow ⊢; omega) _

/-- With an encoder whose output always exceeds the cap and a nonempty
audio, the whole chunker run aborts. -/
theorem go_oversize_none (cap total : Nat) (h : 0 < total) (fs : FS) :
    (go (fun _ _ => cap * 1048576 + 1) cap total 0 fs).1 = none := by
  rw [go]
  rw [dif_pos h]
  split
  · rfl
  · rename_i w fid fs1 att heq
    have := innerLoop_oversize_none cap total 0 60000 fs
    rw [heq] at this
    simp at this

/-- With non-decreasing offsets and non-negative segment starts, every
absolute start in `absStarts ts` is at least the first pair's offset. -/
theorem absStarts_lb :
    ∀ ts : List (Reply × ℚ),
      List.Chain' (· ≤ ·) (ts.map Prod.snd) →
      (∀ p ∈ ts, ∀ s ∈ p.1.segments, 0 ≤ s.start) →
      ∀ x ∈ absStarts ts, ∀ o ∈ (ts.map Prod.snd).head?, o ≤ x := by
  intro ts
  induction ts with
  | nil => intro _ _ x hx; simp [absStarts] at hx
  | cons p ts ih =>
    intro hoff hnn x hx o ho
    simp only [List.map_cons, List.head?_cons, Option.mem_def,
      Option.some.injEq] at ho
    subst ho
    simp only [absStarts, List.flatMap_cons, List.mem_append,
      List.mem_map] at hx
    rcases hx with ⟨s, hs, rfl⟩ | hx
    · have := hnn p (List.mem_cons_self ..) s hs
      linarith
    · rcases ts with _ | ⟨q, ts'⟩
      · simp [absStarts] at hx
      · have hq : p.2 ≤ q.2 := (List.chain'_cons.1 hoff).1
        have := ih hoff.tail
          (fun r hr s hs => hnn r (List.mem_cons_of_mem _ hr) s hs)
          x (by simpa [absStarts] using hx) q.2 (by simp)
        linarith

/-- C8 counterexample: `format_time` is not invariant under real floor on
negative inputs, because Python `int()` truncates toward zero: at
s = -1/2 the program prints "00:00" but at floor(-1/2) = -1 it prints
"-1:59". -/
theorem format_time_floor_counterexample :
    format_time (-(1 : ℚ)/2) = "00:00" ∧
    format_time ((⌊-(1 : ℚ)/2⌋ : ℤ) : ℚ) = "-1:59" ∧
    format_time (-(1 : ℚ)/2) ≠ format_time ((⌊-(1 : ℚ)/2⌋ : ℤ) : ℚ) := by
  have h1 : pyInt (-(1 : ℚ)/2) = 0 := by
    simp only [pyInt]
    rw [if_pos (by norm_num)]
    rw [Int.ceil_eq_iff] <;> norm_num
  have h2 : (⌊-(1 : ℚ)/2⌋ : ℤ) = -1 := by
    rw [Int.floor_eq_iff] <;> norm_num
  have h3 : pyInt (((-1 : ℤ) : ℚ)) = -1 := by
    simp only [pyInt]
    rw [if_pos (by norm_num)]
    exact Int.ceil_intCast (-1 : ℤ)
  refine ⟨?_, ?_, ?_⟩
  · rw [format_time, h1]
    decide
  · rw [h2, format_time, h3]
    decide
  · rw [h2, format_time, format_time, h1, h3]
    decide

/-- C8 (amended to non-negative inputs): for natural `n`, `format_time n`
is exactly the zero-padded `n / 60` and `n % 60` joined by a colon; for
rational `s ≥ 0` it is invariant under taking the floor; and inputs of
3600 seconds or more yield a minutes value of at least 60 (no wrap to an
hours field). -/
theorem format_time_law :
    (∀ n : Nat, format_time (n : ℚ) =
      zfill 2 (toString (n / 60)) ++ ":" ++ zfill 2 (toString (n % 60))) ∧
    (∀ q : ℚ, 0 ≤ q → format_time q = format_time ((⌊q⌋ : ℤ) : ℚ)) ∧
    (∀ q : ℚ, (3600 : ℚ) ≤ q → 60 ≤ pyInt q / 60) := by
  have hpad : ∀ m : ℕ, pad2 ((m : ℤ)) = zfill 2 (toString m) := by
    intro m
    simp only [pad2]
    rw [if_neg (not_lt.2 (Int.natCast_nonneg m))]
    simp
  refine ⟨?_, ?_, ?_⟩
  · intro n
    have h0 : pyInt (n : ℚ) = (n : ℤ) := by
      simp only [pyInt]
      rw [if_neg (not_lt.2 (Nat.cast_nonneg n))]
      exact Int.floor_natCast n
    have hdiv : ((n : ℤ)) / 60 = ((n / 60 : ℕ) : ℤ) := by omega
    have hmod : ((n : ℤ)) % 60 = ((n % 60 : ℕ) : ℤ) := by omega
    rw [format_time, h0, hdiv, hmod, hpad, hpad]
  · intro q hq
    have h1 : pyInt q = ⌊q⌋ := by
      simp only [pyInt]
      rw [if_neg (not_lt.2 hq)]
    have h2 : pyInt ((⌊q⌋ : ℤ) : ℚ) = ⌊q⌋ := by
      simp only [pyInt]
      rw [if_neg (not_lt.2 (by exact_mod_cast Int.floor_nonneg.2 hq))]
      exact Int.floor_intCast _
    rw [format_time, format_time, h1, h2]
  · intro q hq
    have h1 : pyInt q = ⌊q⌋ := by
      simp only [pyInt]
      rw [if_neg (not_lt.2 (by linarith))]
    have h2 : (3600 : ℤ) ≤ ⌊q⌋ := by
      rw [Int.le_floor]
      exact_mod_cast hq
    rw [h1]
    omega

/-- C8 witness: the format law at 125 s, floor invariance at 5/2 s, and
the minutes bound at 3700 s. -/
theorem format_time_law_witness :
    format_time ((125 : ℕ) : ℚ) =
      zfill 2 (toString (125 / 60)) ++ ":" ++ zfill 2 (toString (125 % 60)) ∧
    format_time ((5 : ℚ)/2) = format_time ((⌊(5 : ℚ)/2⌋ : ℤ) : ℚ) ∧
    60 ≤ pyInt (3700 : ℚ) / 60 :=
  ⟨format_time_law.1 125, format_time_law.2.1 ((5 : ℚ)/2) (by norm_num),
    format_time_law.2.2 (3700 : ℚ) (by norm_num)⟩

/-- C9: `estimate_cost` is exactly `ceil(d / 60) * 0.006`, hence monotone,
with value 0 at 0, one price unit at 60 s and two price units at 61 s. -/
theorem estimate_cost_law :
    (∀ d : ℚ, estimate_cost d = (⌈d / 60⌉ : ℚ) * (6 / 1000)) ∧
    (∀ d1 d2 : ℚ, d1 ≤ d2 → estimate_cost d1 ≤ estimate_cost d2) ∧
    estimate_cost 0 = 0 ∧
    estimate_cost 60 = 6 / 1000 ∧
    estimate_cost 61 = 2 * (6 / 1000) := by
  refine ⟨fun d => rfl, ?_, ?_, ?_, ?_⟩
  · intro d1 d2 h
    have hc : (⌈d1 / 60⌉ : ℤ) ≤ ⌈d2 / 60⌉ := Int.ceil_le_ceil (by linarith)
    have hq : ((⌈d1 / 60⌉ : ℤ) : ℚ) ≤ ((⌈d2 / 60⌉ : ℤ) : ℚ) := by
      exact_mod_cast hc
    exact mul_le_mul_of_nonneg_right hq (by norm_num)
  · simp [estimate_cost]
  · rw [estimate_cost]
    norm_num
  · rw [estimate_cost]
    rw [show (⌈(61 : ℚ) / 60⌉ : ℤ) = 2 by rw [Int.ceil_eq_iff] <;> norm_num]
    norm_num

/-- C9 witness: monotonicity instantiated at 30 s and 90 s. -/
theorem estimate_cost_law_witness : estimate_cost 30 ≤ estimate_cost 90 :=
  estimate_cost_law.2.1 30 90 (by norm_num)

/-- C6: the assembler emits, for each pair in input order and each of its
segments in service order, exactly one row labelled with the formatted
offset-shifted start and end joined by " - " and carrying the
whitespace-trimmed text; the closed flat-map form drops and duplicates
nothing, preserving also segments whose text trims to the empty string,
and the row count is the total segment count. -/
theorem assemble_rows (ts : List (Reply × ℚ)) :
    process_transcription ts =
      (ts.flatMap fun p => p.1.segments.map fun seg =>
        { timestamp := format_time (p.2 + seg.start) ++ " - " ++
            format_time (p.2 + seg.stop),
          text := seg.text.trim }) ∧
    (process_transcription ts).length =
      (ts.map fun p => p.1.segments.length).sum := by
  refine ⟨process_transcription_eq ts, ?_⟩
  rw [process_transcription_eq]
  simp [Function.comp_def]

/-- C7: with non-decreasing offsets, per-reply non-decreasing segment
starts, segment starts that do not extend past the gap to the next
pair's offset, and the data-model invariant that segment starts are
non-negative, the absolute start times underlying the assembled rows are
non-decreasing from row to row. -/
theorem assemble_monotone (ts : List (Reply × ℚ))
    (hoff : List.Chain' (· ≤ ·) (ts.map Prod.snd))
    (hseg : ∀ p ∈ ts, List.Chain' (· ≤ ·) (p.1.segments.map Segment.start))
    (hgap : List.Chain'
      (fun p q => ∀ s ∈ p.1.segments, p.2 + s.start ≤ q.2) ts)
    (hnn : ∀ p ∈ ts, ∀ s ∈ p.1.segments, 0 ≤ s.start) :
    List.Chain' (· ≤ ·) (absStarts ts) ∧
    (absStarts ts).length = (process_transcription ts).length := by
  have main : ∀ us : List (Reply × ℚ),
      List.Chain' (· ≤ ·) (us.map Prod.snd) →
      (∀ p ∈ us, List.Chain' (· ≤ ·) (p.1.segments.map Segment.start)) →
      List.Chain' (fun p q => ∀ s ∈ p.1.segments, p.2 + s.start ≤ q.2) us →
      (∀ p ∈ us, ∀ s ∈ p.1.segments, 0 ≤ s.start) →
      List.Chain' (· ≤ ·) (absStarts us) := by
    intro us
    induction us with
    | nil => intro _ _ _ _; simp [absStarts]
    | cons p us ih =>
      intro hoff1 hseg1 hgap1 hnn1
      simp only [absStarts, List.flatMap_cons]
      rw [List.chain'_append]
      refine ⟨?_, ?_, ?_⟩
      · rw [List.chain'_map]
        have hp := hseg1 p (List.mem_cons_self ..)
        rw [List.chain'_map] at hp
        exact hp.imp fun a b hab => by linarith
      · exact ih hoff1.tail
          (fun r hr => hseg1 r (List.mem_cons_of_mem _ hr)) hgap1.tail
          (fun r hr => hnn1 r (List.mem_cons_of_mem _ hr))
      · intro x hx y hy
        rcases us with _ | ⟨q, us'⟩
        · simp [absStarts] at hy
        · rw [List.getLast?_map] at hx
          simp only [Option.mem_def, Option.map_eq_some'] at hx
          obtain ⟨s, hs, rfl⟩ := hx
          have hsmem : s ∈ p.1.segments := List.mem_of_mem_getLast? hs
          have hpq : p.2 + s.start ≤ q.2 := (List.chain'_cons.1 hgap1).1 s hsmem
          have hqy : q.2 ≤ y := by
            have hy' : y ∈ absStarts (q :: us') :=
              List.mem_of_mem_head? hy
            exact absStarts_lb (q :: us') hoff1.tail
              (fun r hr => hnn1 r (List.mem_cons_of_mem _ hr))
              y hy' q.2 (by simp)
          linarith
  refine ⟨main ts hoff hseg hgap hnn, ?_⟩
  rw [process_transcription_eq]
  simp [absStarts, Function.comp_def]

/-- C7 witness: a single reply with two ordered segments at offset 5. -/
theorem assemble_monotone_witness :
    List.Chain' (· ≤ ·)
      (absStarts [(⟨[⟨0, 1, "a"⟩, ⟨2, 3, "b"⟩]⟩, 5)]) :=
  (assemble_monotone [(⟨[⟨0, 1, "a"⟩, ⟨2, 3, "b"⟩]⟩, 5)]
    (by simp)
    (by
      intro p hp
      simp only [List.mem_singleton] at hp
      subst hp
      norm_num [List.chain'_cons])
    (by simp)
    (by
      intro p hp s hs
      simp only [List.mem_singleton] at hp
      subst hp
      simp only [List.mem_cons, List.mem_singleton] at hs
      rcases hs with rfl | rfl | h
      · norm_num
      · norm_num
      · simp at h)).1

/-- Step bound: consecutive chunks of a `chunksOK` list advance the
cursor by at least the 10000 ms floor. -/
theorem chunksOK_chain10 (enc : Nat → Nat → Nat) (cap total : Nat) :
    ∀ cs startMs, chunksOK enc cap total startMs cs →
      List.Chain' (fun a b => a.startMs + 10000 ≤ b.startMs) cs := by
  intro cs
  induction cs with
  | nil => intro _ _; simp
  | cons c0 cs ih =>
    intro startMs hok
    obtain ⟨hlt, hst, hfl, hcap, hsz, hrest⟩ := hok
    rcases cs with _ | ⟨c1, cs⟩
    · simp
    · refine List.Chain'.cons ?_ (ih (startMs + c0.window) hrest)
      obtain ⟨-, hst1, -⟩ := hrest
      omega

/-- Concrete successful run used by witnesses: with an always-fitting
encoder and 15 s of audio, the chunker from an empty disk emits one
chunk, file 0, cut at 0 with the initial 60000 ms window. -/
theorem go_run1 :
    go (fun _ _ => 0) 24 15000 0 FS.empty =
      (some [⟨0, 0, 60000⟩], ⟨1, [0]⟩, [60000]) := by
  have h := go_zero_single 24 15000 (by norm_num) (by norm_num) FS.empty
  simpa [FS.empty] using h

/-- Concrete successful run used by witnesses: the same audio as
`go_run1` but started on the disk state right after the audio
extraction of `main` (file 0 on disk, next fresh name 1). -/
theorem go_run2 :
    go (fun _ _ => 0) 24 15000 0 ⟨1, [0]⟩ =
      (some [⟨1, 0, 60000⟩], ⟨2, [1, 0]⟩, [60000]) := by
  have h := go_zero_single 24 15000 (by norm_num) (by norm_num) ⟨1, [0]⟩
  simpa using h

/-- C1: in every successful chunker run over `total` ms the emitted
chunks carry the offset `startMs / 1000` seconds, start at 0, are in
strictly increasing start order with each cursor advanced by the
attempted window (`next.startMs = cur.startMs + cur.window`, also when
the exported slice was clamped), have pairwise disjoint nonempty slices,
end exactly at `total`, and cover every millisecond of `[0, total)`. -/
theorem split_partition (enc : Nat → Nat → Nat) (cap total : Nat)
    (cs : List ChunkRec) (fs2 : FS) (att : List Nat)
    (h : go enc cap total 0 FS.empty = (some cs, fs2, att)) :
    split_audio_by_size enc cap total =
      cs.map (fun c => (c.fid, (c.startMs : ℚ) / 1000)) ∧
    (∀ c0 ∈ cs.head?, c0.startMs = 0) ∧
    List.Chain' (fun a b => b.startMs = a.startMs + a.window) cs ∧
    List.Pairwise
      (fun a b => a.endMs total ≤ b.startMs ∧ a.startMs < b.startMs) cs ∧
    (∀ c ∈ cs, c.startMs < c.endMs total ∧ c.endMs total ≤ total) ∧
    (∀ c ∈ cs.getLast?, c.endMs total = total) ∧
    (cs = [] → total = 0) ∧
    (∀ x, x < total → ∃ c ∈ cs, c.startMs ≤ x ∧ x < c.endMs total) := by
  obtain ⟨hok, hdisk, hnx, hmem, hpw⟩ :=
    go_some_spec enc cap total 0 FS.empty cs fs2 att h
  refine ⟨?_, ?_, chunksOK_chain enc cap total cs 0 hok,
    chunksOK_pairwise enc cap total cs 0 hok, ?_, ?_, ?_, ?_⟩
  · simp only [split_audio_by_size, h]
    simp [ChunkRec.offsetSec]
  · intro c0 hc0
    rcases cs with _ | ⟨c, l⟩
    · simp at hc0
    · simp only [List.head?_cons, Option.mem_def, Option.some.injEq] at hc0
      subst hc0
      exact hok.2.1
  · intro c hc
    have hm := chunksOK_mem enc cap total cs 0 hok c hc
    simp only [ChunkRec.endMs]
    omega
  · intro c hc
    have h1 := chunksOK_last enc cap total cs 0 hok c hc
    simp only [ChunkRec.endMs]
    omega
  · intro hnil
    subst hnil
    simp only [chunksOK] at hok
    omega
  · intro x hx
    exact chunksOK_cover enc cap total cs 0 hok x (Nat.zero_le x) hx

/-- C1 witness: the run of `go_run1` emits one chunk, file 0 at offset
0 s. -/
theorem split_partition_witness :
    split_audio_by_size (fun _ _ => 0) 24 15000 = [(0, (0 : ℚ))] := by
  have h := split_partition (fun _ _ => 0) 24 15000
    [⟨0, 0, 60000⟩] ⟨1, [0]⟩ [60000] go_run1
  simpa using h.1

/-- C2: in every chunker run, every emitted chunk's measured on-disk
size is at most `max_size_mb * 1048576` bytes, and the disk afterwards
holds exactly the emitted chunk files: every oversize attempt was
deleted and never emitted. -/
theorem split_size_bound (enc : Nat → Nat → Nat) (cap total : Nat)
    (cs : List ChunkRec) (fs2 : FS) (att : List Nat)
    (h : go enc cap total 0 FS.empty = (some cs, fs2, att)) :
    (∀ c ∈ cs, enc c.startMs (c.endMs total) ≤ cap * 1048576) ∧
    fs2.onDisk = (cs.map ChunkRec.fid).reverse := by
  obtain ⟨hok, hdisk, -, -, -⟩ :=
    go_some_spec enc cap total 0 FS.empty cs fs2 att h
  refine ⟨fun c hc => (chunksOK_mem enc cap total cs 0 hok c hc).2.2.2.2, ?_⟩
  simpa [FS.empty] using hdisk

/-- C2 witness: the run of `go_run1` leaves exactly the one emitted
chunk file on disk, and its size is below the cap. -/
theorem split_size_bound_witness :
    (∀ c ∈ [ChunkRec.mk 0 0 60000],
      (fun _ _ => (0 : Nat)) c.startMs (c.endMs 15000) ≤ 24 * 1048576) ∧
    (FS.mk 1 [0]).onDisk = ([ChunkRec.mk 0 0 60000].map ChunkRec.fid).reverse :=
  split_size_bound (fun _ _ => 0) 24 15000 [⟨0, 0, 60000⟩] ⟨1, [0]⟩ [60000]
    go_run1

/-- C3: every window the chunker ever attempts to encode is at least the
10000 ms floor (the run aborts before trying a smaller one), and in a
successful run every emitted chunk's accepted window is at least the
floor, with every non-final chunk's exported duration equal to its
window and hence at least 10000 ms (only the final chunk may be clamped
shorter). -/
theorem split_duration_floor (enc : Nat → Nat → Nat) (cap total : Nat) :
    (∀ a ∈ (go enc cap total 0 FS.empty).2.2, 10000 ≤ a) ∧
    ∀ cs fs2 att, go enc cap total 0 FS.empty = (some cs, fs2, att) →
      (∀ c ∈ cs, 10000 ≤ c.window) ∧
      ∀ c ∈ cs.dropLast, c.endMs total - c.startMs = c.window ∧
        10000 ≤ c.endMs total - c.startMs := by
  refine ⟨go_att_ge enc cap total 0 FS.empty, ?_⟩
  intro cs fs2 att h
  obtain ⟨hok, -, -, -, -⟩ :=
    go_some_spec enc cap total 0 FS.empty cs fs2 att h
  refine ⟨fun c hc => (chunksOK_mem enc cap total cs 0 hok c hc).2.2.1, ?_⟩
  intro c hc
  have h1 := chunksOK_dropLast enc cap total cs 0 hok c hc
  have h2 := chunksOK_mem enc cap total cs 0 hok c (List.dropLast_subset _ hc)
  simp only [ChunkRec.endMs]
  omega

/-- C3 witness: in the run of `go_run1` the emitted chunk's window meets
the floor. -/
theorem split_duration_floor_witness : 10000 ≤ (ChunkRec.mk 0 0 60000).window :=
  (((split_duration_floor (fun _ _ => 0) 24 15000).2
    [⟨0, 0, 60000⟩] ⟨1, [0]⟩ [60000] go_run1).1 _ (by simp))

/-- C4: the chunker terminates on every finite input: the shrink step
strictly decreases any positive window, and in a successful run the
cursor strictly increases by at least 10000 ms per chunk, so at most
`total / 10000 + 1` chunks are emitted. -/
theorem split_terminates (enc : Nat → Nat → Nat) (cap total : Nat) :
    (∀ n, 0 < n → shrink n < n) ∧
    ∀ cs fs2 att, go enc cap total 0 FS.empty = (some cs, fs2, att) →
      List.Chain' (fun a b => a.startMs + 10000 ≤ b.startMs) cs ∧
      cs.length ≤ total / 10000 + 1 := by
  constructor
  · intro n hn
    simp only [shrink]
    omega
  · intro cs fs2 att h
    obtain ⟨hok, -, -, -, -⟩ :=
      go_some_spec enc cap total 0 FS.empty cs fs2 att h
    refine ⟨chunksOK_chain10 enc cap total cs 0 hok, ?_⟩
    rcases eq_or_ne cs [] with rfl | hne
    · simp
    · have hb := chunksOK_length enc cap total cs 0 hok hne
      have hd : cs.length - 1 ≤ total / 10000 :=
        (Nat.le_div_iff_mul_le (by norm_num)).2 (by omega)
      omega

/-- C4 witness: the run of `go_run1` emits one chunk, within the
`total / 10000 + 1` bound. -/
theorem split_terminates_witness :
    ([ChunkRec.mk 0 0 60000] : List ChunkRec).length ≤ 15000 / 10000 + 1 :=
  ((split_terminates (fun _ _ => 0) 24 15000).2
    [⟨0, 0, 60000⟩] ⟨1, [0]⟩ [60000] go_run1).2

/-- C5 counterexample: after a run whose (single) transcription call
fails, both the chunk file (1) and the extracted audio file (0) are
still on disk — the claimed cleanup on every exit path, and in
particular deletion of a chunk after a failed transcription, does not
happen. -/
theorem cleanup_counterexample :
    (runMain (fun _ _ => 0) 24 15000 (fun _ => false)).1 =
      RunStatus.transcribeError ∧
    (runMain (fun _ _ => 0) 24 15000 (fun _ => false)).2.onDisk = [1, 0] ∧
    (runMain (fun _ _ => 0) 24 15000 (fun _ => false)).2.onDisk ≠ [] := by
  have hrun : runMain (fun _ _ => 0) 24 15000 (fun _ => false) =
      (RunStatus.transcribeError, ⟨2, [1, 0]⟩) := by
    unfold runMain
    rw [show FS.empty.create = (0, (⟨1, [0]⟩ : FS)) from rfl]
    simp only []
    rw [go_run2]
    simp [transcribeLoop]
  rw [hrun]
  exact ⟨rfl, rfl, by simp⟩

/-- C5 (amended): cleanup happens on the successful path only — when the
chunker succeeds with a nonempty chunk list and every transcription call
succeeds, each chunk file is deleted right after its transcription and
the extracted audio file at the end, leaving no temporary file on disk;
the failure paths (see the counterexample) leave their temporaries
behind. -/
theorem cleanup_success_path (enc : Nat → Nat → Nat) (cap total : Nat)
    (tOk : Nat → Bool) (cs : List ChunkRec) (fs2 : FS) (att : List Nat)
    (hgo : go enc cap total 0 ⟨1, [0]⟩ = (some cs, fs2, att))
    (hne : cs ≠ []) (hok : ∀ i, tOk i = true) :
    (runMain enc cap total tOk).1 = RunStatus.success ∧
    (runMain enc cap total tOk).2.onDisk = [] := by
  obtain ⟨-, hdisk, -, -, hpw⟩ :=
    go_some_spec enc cap total 0 ⟨1, [0]⟩ cs fs2 att hgo
  have hclean := transcribeLoop_clean tOk hok cs 0 fs2 [0]
    (by simpa using hdisk) hpw
  rcases cs with _ | ⟨c, cs'⟩
  · exact absurd rfl hne
  have hrun : runMain enc cap total tOk =
      (RunStatus.success, FS.delete 0 ⟨fs2.nextId, [0]⟩) := by
    unfold runMain
    rw [show FS.empty.create = (0, (⟨1, [0]⟩ : FS)) from rfl]
    simp only []
    rw [hgo]
    simp only [Option.getD_some]
    rw [hclean]
    rfl
  rw [hrun]
  refine ⟨rfl, ?_⟩
  simp [FS.delete]

/-- C5 witness for the amended cleanup: the concrete run of `go_run2`
with an always-succeeding transcription service finishes with an empty
temporary directory. -/
theorem cleanup_success_path_witness :
    (runMain (fun _ _ => 0) 24 15000 (fun _ => true)).1 =
      RunStatus.success ∧
    (runMain (fun _ _ => 0) 24 15000 (fun _ => true)).2.onDisk = [] :=
  cleanup_success_path (fun _ _ => 0) 24 15000 (fun _ => true)
    [⟨1, 0, 60000⟩] ⟨2, [1, 0]⟩ [60000] go_run2 (by simp) (fun _ => rfl)

/-- C10: a zero-duration audio input makes the chunker return the empty
list from its (never entered) outer loop, creating no file, and `main`
treats every empty chunk list as the chunking failure; an
infeasibility abort (here: an encoder whose output always exceeds the
cap) also returns the empty list, so the two cases are indistinguishable
at the public interface. -/
theorem zero_duration_public :
    (∀ (enc : Nat → Nat → Nat) (cap : Nat) (tOk : Nat → Bool),
      split_audio_by_size enc cap 0 = [] ∧
      go enc cap 0 0 FS.empty = (some [], FS.empty, []) ∧
      (runMain enc cap 0 tOk).1 = RunStatus.chunkFail) ∧
    (∀ (cap total : Nat) (tOk : Nat → Bool), 0 < total →
      split_audio_by_size (fun _ _ => cap * 1048576 + 1) cap total = [] ∧
      (runMain (fun _ _ => cap * 1048576 + 1) cap total tOk).1 =
        RunStatus.chunkFail) := by
  have hgo0 : ∀ (enc : Nat → Nat → Nat) (cap : Nat) (fs : FS),
      go enc cap 0 0 fs = (some [], fs, []) := by
    intro enc cap fs
    rw [go]
    rw [dif_neg (by omega)]
  constructor
  · intro enc cap tOk
    refine ⟨?_, hgo0 enc cap FS.empty, ?_⟩
    · rw [split_audio_by_size, hgo0]
      rfl
    · unfold runMain
      rw [show FS.empty.create = (0, (⟨1, [0]⟩ : FS)) from rfl]
      simp only []
      rw [hgo0]
      rfl
  · intro cap total tOk htot
    have h1 := go_oversize_none cap total htot FS.empty
    have h2 := go_oversize_none cap total htot ⟨1, [0]⟩
    constructor
    · rw [split_audio_by_size, h1]
    · unfold runMain
      rw [show FS.empty.create = (0, (⟨1, [0]⟩ : FS)) from rfl]
      simp only []
      rw [h2]
      rfl

/-- C10 witness: the infeasibility case at a one-minute input with an
always-oversize encoder is indistinguishable from the zero-duration
case: empty chunk list, chunking failure. -/
theorem zero_duration_public_witness :
    split_audio_by_size (fun _ _ => 24 * 1048576 + 1) 24 60000 = [] ∧
    (runMain (fun _ _ => 24 * 1048576 + 1) 24 60000 (fun _ => true)).1 =
      RunStatus.chunkFail :=
  zero_duration_public.2 24 60000 (fun _ => true) (by norm_num)

end Transtamps
